import Mathlib

/-!
Verification development for the DermSight retrieval/indexing subsystem
(`chunk_texts.py`, `create_local_embeddings.py`, `hybrid_retrieval.py`,
`query_engine.py`).  Python functions are shallowly embedded as executable
Lean definitions; machine concerns (files, network) appear as explicit
parameters.
-/

namespace DermSight

/-! ## Python dictionary primitives

Python `dict` preserves insertion order; `d[k] = v` replaces the value in
place when `k` is present and appends a fresh entry otherwise; lookup finds
the unique entry for a key.  We model a dict as an association list with
these exact semantics. -/

/-- First-match lookup in an association list (Python `d.get(k)` / `d[k]`). -/
def dlookup {α β : Type} [DecidableEq α] : List (α × β) → α → Option β
  | [], _ => none
  | (k, v) :: rest, a => if k = a then some v else dlookup rest a

/-- Python `d[k] = v`: replace in place if the key exists, else append. -/
def dictInsert {α β : Type} [DecidableEq α] : List (α × β) → α → β → List (α × β)
  | [], k, v => [(k, v)]
  | (k', v') :: rest, k, v =>
      if k' = k then (k', v) :: rest else (k', v') :: dictInsert rest k v

/-! ## Chunker (`chunk_texts.py`, `chunk_text`)

A sentence is represented by its whitespace token list (the output of
Python `str.split()`); `words_count s = len(s.split())` is then the list
length, and `" ".join` of sentences concatenates token lists, since for
Python `split()` the tokens of a single-space join are the concatenation
of the parts' tokens.  Chunk bodies are emitted as token lists with the
bracketed context tag excluded; the tag enters only through its word
count `contextLen`, subtracted from `max_words`. -/

/-- Total word count of a list of sentences. -/
def totalWords (l : List (List String)) : Nat :=
  (l.map List.length).sum

/-- The overlap-seeding loop of `chunk_text` (lines 90–94): pop sentences
from the end of the just-closed chunk (`rev` is the reversed sentence
list), accumulating them in front of `acc`, while the running count is
below `overlap_words`. -/
def popSeed (ow : Nat) : List (List String) → Nat → List (List String) →
    (List (List String) × Nat)
  | [], c, acc => (acc, c)
  | s :: rest, c, acc =>
      if c < ow then popSeed ow rest (c + s.length) (s :: acc) else (acc, c)

/-- Loop state of `chunk_text`: emitted chunk bodies, current sentence
accumulation, and its running word count. -/
structure CState where
  chunks : List (List String)
  cur : List (List String)
  cur_words : Nat
  deriving Repr, DecidableEq

/-- One iteration of the sentence loop in `chunk_text` (lines 74–100).
When `overlap_words = 0` the Python code resets the accumulation to
`[], 0`, which is exactly what `popSeed 0` returns, so both branches are
expressed through `popSeed`. -/
def chunkStep (em ow : Nat) (st : CState) (sent : List String) : CState :=
  let w := sent.length
  if st.cur_words + w ≤ em then
    { st with cur := st.cur ++ [sent], cur_words := st.cur_words + w }
  else
    let chunks' := if st.cur.isEmpty then st.chunks else st.chunks ++ [st.cur.flatten]
    let seed := popSeed ow st.cur.reverse 0 []
    { chunks := chunks', cur := seed.1 ++ [sent], cur_words := seed.2 + w }

/-- `chunk_text` (lines 62–109): fold the sentence loop and flush the final
accumulation.  `effective_max = max 50 (max_words − contextLen)` mirrors
line 72, with `contextLen` the word count of the context tag. -/
def chunk_text (sentences : List (List String))
    (max_words overlap_words contextLen : Nat) : List (List String) :=
  let em := max 50 (max_words - contextLen)
  let fin := sentences.foldl (chunkStep em overlap_words) ⟨[], [], 0⟩
  if fin.cur.isEmpty then fin.chunks else fin.chunks ++ [fin.cur.flatten]

/-! ## Index builder (`create_local_embeddings.py`, `main`)

The content hash `sha_of_text` (SHA-256) is a parameter `sha`; embeddings
are a deterministic function of a chunk's text, so a vector-index entry is
recorded as its `(surrogate key, text)` pair.  The feed record carries the
fields `main` reads (`id`, `text`) plus `doc_id`; a missing `id`/`text` is
modelled as the empty string, matching the falsiness test on line 119. -/

/-- A record of the consolidated passage feed (one JSONL line). -/
structure ChunkRec where
  id : String
  doc_id : String
  text : String
  deriving Repr, DecidableEq

/-- Condition of the persisted FAISS index file before a run: absent,
present but unreadable (`faiss.read_index` raises), or readable. -/
inductive IndexFile where
  | missing
  | corrupt
  | ok
  deriving Repr, DecidableEq

/-- The persisted index state the builder loads and writes: vector-index
entries, the passage list (`chunks.json`), the `chunk_id → surrogate_key`
map (`id_to_index.json`), the `chunk_id → fingerprint` map
(`id_to_sha.json`), and the Whoosh lexical index as its stored
`(id, text)` documents. -/
structure IndexState where
  faissEntries : List (Nat × String)
  saved_chunks : List ChunkRec
  id_to_index : List (String × Nat)
  id_to_sha : List (String × String)
  whoosh : List (String × String)
  deriving Repr, DecidableEq

/-- Everything a builder run leaves on disk, plus how many passages it
embedded: the updated `IndexState` and the two derived artifacts of step 8
(`faiss_to_chunkid.json` and `chunks_dict.json`). -/
structure RunOutput where
  state : IndexState
  faiss_to_chunkid : List (Nat × String)
  chunks_dict : List (String × ChunkRec)
  embedded : Nat
  deriving Repr, DecidableEq

/-- Step 5 of `main` (lines 110–132): keep, in feed order and paired with
its fingerprint, every record with a nonempty `id` and `text` whose
fingerprint does not match the stored one; lookups go against the
snapshot of `id_to_sha` taken before the loop. -/
def new_chunk_filter (sha : String → String) (id_to_sha : List (String × String))
    (feed : List ChunkRec) : List (ChunkRec × String) :=
  feed.foldl
    (fun acc c =>
      if c.id = "" ∨ c.text = "" then acc
      else if dlookup id_to_sha c.id = some (sha c.text) then acc
      else acc ++ [(c, sha c.text)])
    []

/-- `next_faiss_id` computation (lines 165–168): one past the maximum
assigned surrogate key, or `1` when the map is empty. -/
def next_faiss_id (m : List (String × Nat)) : Nat :=
  match m with
  | [] => 1
  | _ => (m.map Prod.snd).foldl Nat.max 0 + 1

/-- `np.arange(next, next + len)` zipped with the new chunks
(lines 185–195): consecutive surrogate keys starting at `n`. -/
def assignIds {α : Type} (n : Nat) : List α → List (Nat × α)
  | [] => []
  | c :: cs => (n, c) :: assignIds (n + 1) cs

/-- The FAISS part of a run, step 6 of `main` (lines 134–213): when there
are new chunks, load or reset the prior artifacts — a corrupt index file
resets the vector index, passage list and `id_to_index` (lines 151–156)
while `id_to_sha` is left as loaded — then assign consecutive fresh
surrogate keys, add the embedded texts to the index, update both maps and
append the new records to the passage list.  Returns
`(vector index, passage list, id_to_index, id_to_sha)`. -/
def step6 (ifile : IndexFile) (prior : IndexState)
    (newChunks : List (ChunkRec × String)) :
    List (Nat × String) × List ChunkRec × List (String × Nat) × List (String × String) :=
  if newChunks.isEmpty then
    (prior.faissEntries, prior.saved_chunks, prior.id_to_index, prior.id_to_sha)
  else
    let base :
        List (Nat × String) × List ChunkRec × List (String × Nat) :=
      match ifile with
      | .ok => (prior.faissEntries, prior.saved_chunks, prior.id_to_index)
      | .missing => ([], prior.saved_chunks, prior.id_to_index)
      | .corrupt => ([], [], [])
    let withIds := assignIds (next_faiss_id base.2.2) newChunks
    (base.1 ++ withIds.map (fun p => (p.1, p.2.1.text)),
     base.2.1 ++ newChunks.map Prod.fst,
     withIds.foldl (fun d p => dictInsert d p.2.1.id p.1) base.2.2,
     withIds.foldl (fun d p => dictInsert d p.2.1.id p.2.2) prior.id_to_sha)

/-- Step 7 of `main` (lines 215–250): add to the Whoosh index every saved
chunk whose id is not among the ids stored before the run (the set of
existing ids is computed once, before any additions). -/
def whooshSync (priorWhoosh : List (String × String))
    (saved : List ChunkRec) : List (String × String) :=
  priorWhoosh ++
    ((saved.filter (fun c => decide (c.id ∉ priorWhoosh.map Prod.fst))).map
      (fun c => (c.id, c.text)))

/-- The body of a run of `main` (lines 110–270) on a nonempty feed, given
the fingerprint function, the condition of the FAISS index file, the
loaded prior state and the feed: classify (step 5), embed and update
(step 6), sync the lexical index (step 7), and derive the reverse map and
the chunk dictionary (step 8). -/
def runBuilderCore (sha : String → String) (ifile : IndexFile)
    (prior : IndexState) (feed : List ChunkRec) : RunOutput :=
  let newChunks := new_chunk_filter sha prior.id_to_sha feed
  let upd := step6 ifile prior newChunks
  let saved1 := upd.2.1
  ⟨⟨upd.1, saved1, upd.2.2.1, upd.2.2.2, whooshSync prior.whoosh saved1⟩,
   upd.2.2.1.foldl (fun d p => dictInsert d p.2 p.1) [],
   saved1.foldl (fun d c => dictInsert d c.id c) [],
   newChunks.length⟩

/-- A full builder invocation: the early return on an empty feed (line 106)
writes nothing (`none`); otherwise the run produces `runBuilderCore`. -/
def runBuilder (sha : String → String) (ifile : IndexFile)
    (prior : IndexState) (feed : List ChunkRec) : Option RunOutput :=
  if feed.isEmpty then none else some (runBuilderCore sha ifile prior feed)

/-! ## Hybrid retriever (`hybrid_retrieval.py`, `hybrid_search`)

A hit is the dictionary assembled in `hybrid_search`: the passage text,
its chunk id, and the `source_type` tag (`"vector"` / `"keyword"`). -/

/-- A retrieval hit. -/
structure Hit where
  id : String
  text : String
  source_type : String
  deriving Repr, DecidableEq

/-- Hydration of FAISS neighbors (lines 108–115): each neighbor id in
`I[0]` passes through the guard `idx != -1 and idx < len(metadata)` and is
then looked up positionally as `metadata[idx]`, tagged `"vector"`.  FAISS
returns only stored surrogate keys or the sentinel `-1`, so negative ids
other than `-1` do not occur; the embedding guards them with `0 ≤ idx`. -/
def semanticHits (metadata : List ChunkRec) (neighbors : List Int) : List Hit :=
  neighbors.foldl
    (fun acc idx =>
      if idx ≠ -1 ∧ 0 ≤ idx ∧ idx < (metadata.length : Int) then
        match metadata.get? idx.toNat with
        | some c => acc ++ [⟨c.id, c.text, "vector"⟩]
        | none => acc
      else acc)
    []

/-- Fusion step of `hybrid_search` (lines 147–166): insert keyword hits
into an insertion-ordered dict keyed by passage text, then vector hits
only when their text is not yet a key, then truncate the value list to
`top_k`. -/
def hybrid_fuse (whoosh_hits faiss_hits : List Hit) (top_k : Nat) : List Hit :=
  let d1 := whoosh_hits.foldl (fun d h => dictInsert d h.text h) []
  let d2 := faiss_hits.foldl
    (fun d h => if (dlookup d h.text).isSome then d else dictInsert d h.text h) d1
  (d2.map Prod.snd).take top_k

/-! ## Reranker (`query_engine.py`, `rerank`)

Cross-encoder scores are compared but never computed on, so they are
modelled as rationals.  The scorer may fail (model unavailable), hence
`Option`; on an empty candidate list `rerank` returns `[]` before any
scoring.  Python `sorted(..., reverse=True)` is a stable descending sort:
an element is placed after exactly those earlier elements whose key is
strictly greater or that precede it in the input with an equal key. -/

/-- Insert into a descending-sorted list, after strictly greater scores
and before equal ones coming from later input positions. -/
def insertDesc {α : Type} (x : α × ℚ) : List (α × ℚ) → List (α × ℚ)
  | [] => [x]
  | y :: ys => if y.2 ≤ x.2 then x :: y :: ys else y :: insertDesc x ys

/-- Stable descending sort by attached score (Python
`sorted(key=rerank_score, reverse=True)`). -/
def sortDesc {α : Type} : List (α × ℚ) → List (α × ℚ)
  | [] => []
  | c :: cs => insertDesc c (sortDesc cs)

/-- `rerank` (lines 182–196): empty candidates short-circuit to `[]`;
otherwise score every `(query, text)` pair, attach the scores, stable-sort
descending and keep the first `keep_n`. -/
def rerank (score : String → String → Option ℚ) (query : String)
    (candidates : List Hit) (keep_n : Nat) : Option (List (Hit × ℚ)) :=
  if candidates.isEmpty then some []
  else do
    let scores ← candidates.mapM (fun c => score query c.text)
    some ((sortDesc (candidates.zip scores)).take keep_n)

/-! ## Orchestrator / completion fallback (`query_engine.py`)

The network is abstracted: `http` is `some body` when the Groq call
succeeds with the returned message content and `none` when the request
raises; `ollamaOut` likewise holds the subprocess stdout or `none` on
error.  `generate_answer`'s returned text is the canned greeting on the
greeting shortcut and otherwise the result of `call_llm` on the built
prompt; `greeting` abstracts the fuzzy-match test of line 216. -/

/-- `query_groq` (lines 97–120): a missing API key yields the marked error
string; a raised request yields `""`; success yields the stripped body. -/
def query_groq (apiKey : Option String) (http : Option String) : String :=
  match apiKey with
  | none => "❌ Error: GROQ_API_KEY not found in .env file."
  | some _ =>
    match http with
    | none => ""
    | some body => body.trim

/-- `query_ollama` (lines 122–134): stripped stdout, or `""` on error. -/
def query_ollama (ollamaOut : Option String) : String :=
  match ollamaOut with
  | none => ""
  | some out => out.trim

/-- `call_llm` (lines 136–144) with the configured `PROVIDER = "groq"`:
try Groq, fall back to Ollama when the Groq result is falsy. -/
def call_llm (apiKey : Option String) (http : Option String)
    (ollamaOut : Option String) : String :=
  let response := query_groq apiKey http
  if response ≠ "" then response else query_ollama ollamaOut

/-- The canned greeting reply of `generate_answer` (line 217). -/
def greetingReply : String :=
  "Hello. I am the DermSight Clinical Assistant. Please describe your skin concern or upload an image for analysis."

/-- The returned text of `generate_answer` (lines 200–362): the canned
greeting on the shortcut path, otherwise whatever `call_llm` produced for
the constructed prompt.  History updates and prompt construction do not
affect which text is returned. -/
def generate_answer (greeting : Bool) (apiKey : Option String)
    (http : Option String) (ollamaOut : Option String) : String :=
  if greeting then greetingReply else call_llm apiKey http ollamaOut

/-! ## Association-list lemmas -/

theorem dlookup_dictInsert_self {α β : Type} [DecidableEq α]
    (d : List (α × β)) (k : α) (v : β) :
    dlookup (dictInsert d k v) k = some v := by
  induction d with
  | nil => simp [dictInsert, dlookup]
  | cons p rest ih =>
    obtain ⟨k', v'⟩ := p
    by_cases h : k' = k
    · simp [dictInsert, h, dlookup]
    · simp [dictInsert, h, dlookup, ih]

theorem dlookup_dictInsert_ne {α β : Type} [DecidableEq α]
    (d : List (α × β)) (k : α) (v : β) (a : α) (h : a ≠ k) :
    dlookup (dictInsert d k v) a = dlookup d a := by
  induction d with
  | nil =>
    simp only [dictInsert, dlookup]
    rw [if_neg (fun hc => h hc.symm)]
  | cons p rest ih =>
    obtain ⟨k', v'⟩ := p
    simp only [dictInsert]
    by_cases hk : k' = k
    · subst hk
      rw [if_pos rfl]
      simp only [dlookup]
      rw [if_neg (fun hc => h hc.symm), if_neg (fun hc => h hc.symm)]
    · rw [if_neg hk]
      simp only [dlookup]
      by_cases ha : k' = a
      · rw [if_pos ha, if_pos ha]
      · rw [if_neg ha, if_neg ha, ih]

theorem dictInsert_of_lookup_none {α β : Type} [DecidableEq α]
    (d : List (α × β)) (k : α) (v : β) (h : dlookup d k = none) :
    dictInsert d k v = d ++ [(k, v)] := by
  induction d with
  | nil => simp [dictInsert]
  | cons p rest ih =>
    obtain ⟨k', v'⟩ := p
    by_cases hk : k' = k
    · simp [dlookup, hk] at h
    · simp only [dlookup] at h
      rw [if_neg hk] at h
      simp [dictInsert, hk, ih h]

theorem isSome_dlookup_dictInsert {α β : Type} [DecidableEq α]
    (d : List (α × β)) (k : α) (v : β) (a : α)
    (h : (dlookup d a).isSome) :
    (dlookup (dictInsert d k v) a).isSome := by
  by_cases ha : a = k
  · subst ha; simp [dlookup_dictInsert_self]
  · rw [dlookup_dictInsert_ne d k v a ha]; exact h

theorem forall_mem_dictInsert {α β : Type} [DecidableEq α]
    (d : List (α × β)) (k : α) (v : β) (R : α × β → Prop)
    (hd : ∀ p ∈ d, R p) (hkv : R (k, v)) :
    ∀ p ∈ dictInsert d k v, R p := by
  induction d with
  | nil => simpa [dictInsert] using hkv
  | cons q rest ih =>
    obtain ⟨k', v'⟩ := q
    by_cases hk : k' = k
    · subst hk
      intro p hp
      simp [dictInsert] at hp
      rcases hp with h | h
      · exact h ▸ hkv
      · exact hd p (List.mem_cons_of_mem _ h)
    · intro p hp
      simp only [dictInsert, if_neg hk, List.mem_cons] at hp
      rcases hp with h | h
      · exact h ▸ hd (k', v') (List.mem_cons_self _ _)
      · exact ih (fun q hq => hd q (List.mem_cons_of_mem _ hq)) p h

/-- Lookups at a key not among the inserted ones pass through a
`dictInsert` fold unchanged. -/
theorem dlookup_foldl_dictInsert_not_mem {α β γ : Type} [DecidableEq α]
    (f : γ → α) (g : γ → β) (ps : List γ) (a : α) (ha : a ∉ ps.map f) :
    ∀ d : List (α × β),
      dlookup (ps.foldl (fun d p => dictInsert d (f p) (g p)) d) a = dlookup d a := by
  induction ps with
  | nil => intro d; rfl
  | cons p rest ih =>
    simp only [List.map_cons, List.mem_cons, not_or] at ha
    intro d
    simp only [List.foldl_cons]
    rw [ih ha.2, dlookup_dictInsert_ne _ _ _ _ ha.1]

/-- With pairwise-distinct keys, a `dictInsert` fold sends each inserted
key to its own value. -/
theorem dlookup_foldl_dictInsert_mem {α β γ : Type} [DecidableEq α]
    (f : γ → α) (g : γ → β) (ps : List γ)
    (hnd : (ps.map f).Nodup) (p : γ) (hp : p ∈ ps) :
    ∀ d : List (α × β),
      dlookup (ps.foldl (fun d q => dictInsert d (f q) (g q)) d) (f p) = some (g p) := by
  induction ps with
  | nil => cases hp
  | cons q rest ih =>
    simp only [List.map_cons, List.nodup_cons] at hnd
    intro d
    rcases List.mem_cons.mp hp with h | h
    · subst h
      simp only [List.foldl_cons]
      rw [dlookup_foldl_dictInsert_not_mem f g rest _ hnd.1]
      exact dlookup_dictInsert_self d (f p) (g p)
    · exact ih hnd.2 h _

theorem isSome_dlookup_foldl_dictInsert_base {α β γ : Type} [DecidableEq α]
    (f : γ → α) (g : γ → β) (ps : List γ) (a : α) :
    ∀ d : List (α × β), (dlookup d a).isSome →
      (dlookup (ps.foldl (fun d q => dictInsert d (f q) (g q)) d) a).isSome := by
  induction ps with
  | nil => intro d h; exact h
  | cons q rest ih =>
    intro d h
    simp only [List.foldl_cons]
    exact ih _ (isSome_dlookup_dictInsert _ _ _ _ h)

theorem isSome_dlookup_foldl_dictInsert {α β γ : Type} [DecidableEq α]
    (f : γ → α) (g : γ → β) (ps : List γ) (p : γ) (hp : p ∈ ps) :
    ∀ d : List (α × β),
      (dlookup (ps.foldl (fun d q => dictInsert d (f q) (g q)) d) (f p)).isSome := by
  induction ps with
  | nil => cases hp
  | cons q rest ih =>
    intro d
    rcases List.mem_cons.mp hp with h | h
    · subst h
      simp only [List.foldl_cons]
      exact isSome_dlookup_foldl_dictInsert_base f g rest _ _
        (by rw [dlookup_dictInsert_self]; rfl)
    · exact ih h _

theorem forall_mem_foldl_dictInsert {α β γ : Type} [DecidableEq α]
    (f : γ → α) (g : γ → β) (ps : List γ)
    (R : α × β → Prop) (hps : ∀ x ∈ ps, R (f x, g x)) :
    ∀ d : List (α × β), (∀ p ∈ d, R p) →
      ∀ p ∈ ps.foldl (fun d q => dictInsert d (f q) (g q)) d, R p := by
  induction ps with
  | nil => intro d hd; exact hd
  | cons q rest ih =>
    intro d hd
    simp only [List.foldl_cons]
    exact ih (fun x hx => hps x (List.mem_cons_of_mem _ hx)) _
      (forall_mem_dictInsert d (f q) (g q) R hd (hps q (List.mem_cons_self _ _)))

/-! ## Builder characterizations -/

/-- A feed record the builder does not skip on line 119. -/
def validRec (c : ChunkRec) : Prop := ¬(c.id = "" ∨ c.text = "")

instance validRec.dec : DecidablePred validRec := fun c => by
  unfold validRec; infer_instance

/-- The keep-condition of step 5: valid and fingerprint-mismatched. -/
def keepRec (sha : String → String) (m : List (String × String))
    (c : ChunkRec) : Prop :=
  validRec c ∧ dlookup m c.id ≠ some (sha c.text)

instance keepRec.dec (sha : String → String) (m : List (String × String)) :
    DecidablePred (keepRec sha m) := fun c => by
  unfold keepRec; infer_instance

theorem new_chunk_filter_foldl (sha : String → String)
    (m : List (String × String)) (feed : List ChunkRec) :
    ∀ acc : List (ChunkRec × String),
      feed.foldl
        (fun acc c =>
          if c.id = "" ∨ c.text = "" then acc
          else if dlookup m c.id = some (sha c.text) then acc
          else acc ++ [(c, sha c.text)])
        acc
      = acc ++ (feed.filter (fun c => decide (keepRec sha m c))).map
          (fun c => (c, sha c.text)) := by
  induction feed with
  | nil => intro acc; simp
  | cons c rest ih =>
    intro acc
    by_cases h1 : c.id = "" ∨ c.text = ""
    · have hk : ¬ keepRec sha m c := fun hc => hc.1 h1
      simp only [List.foldl_cons, if_pos h1, List.filter_cons,
        decide_eq_true_eq]
      rw [if_neg (by simpa using hk)]
      exact ih acc
    · by_cases h2 : dlookup m c.id = some (sha c.text)
      · have hk : ¬ keepRec sha m c := fun hc => hc.2 h2
        simp only [List.foldl_cons, if_neg h1, if_pos h2, List.filter_cons]
        rw [if_neg (by simpa using hk)]
        exact ih acc
      · have hk : keepRec sha m c := ⟨h1, h2⟩
        simp only [List.foldl_cons, if_neg h1, if_neg h2, List.filter_cons]
        rw [if_pos (by simpa using hk)]
        simp only [List.map_cons]
        rw [ih (acc ++ [(c, sha c.text)])]
        simp

/-- Step 5 keeps exactly the fingerprint-mismatched valid records, in feed
order, paired with their fingerprints. -/
theorem new_chunk_filter_eq (sha : String → String)
    (m : List (String × String)) (feed : List ChunkRec) :
    new_chunk_filter sha m feed
      = (feed.filter (fun c => decide (keepRec sha m c))).map
          (fun c => (c, sha c.text)) := by
  rw [new_chunk_filter, new_chunk_filter_foldl]
  simp

theorem assignIds_map_snd {α : Type} (l : List α) :
    ∀ n, (assignIds n l).map Prod.snd = l := by
  induction l with
  | nil => intro n; rfl
  | cons c cs ih => intro n; simp [assignIds, ih]

theorem assignIds_map_key {α β : Type} (f : α → β) (l : List α) (n : Nat) :
    (assignIds n l).map (fun p => f p.2) = l.map f := by
  have h1 : (assignIds n l).map (fun p => f p.2)
      = ((assignIds n l).map Prod.snd).map f := by
    rw [List.map_map]; rfl
  rw [h1, assignIds_map_snd]

/-- On a corrupt index file with a nonempty new-chunk set, step 6 starts
from empty vector index, passage list and surrogate map and assigns keys
from 1, while `id_to_sha` updates start from the loaded prior map. -/
theorem step6_corrupt (prior : IndexState) (nc : List (ChunkRec × String))
    (h : nc ≠ []) :
    step6 .corrupt prior nc =
      ((assignIds 1 nc).map (fun p => (p.1, p.2.1.text)),
       nc.map Prod.fst,
       (assignIds 1 nc).foldl (fun d p => dictInsert d p.2.1.id p.1) [],
       (assignIds 1 nc).foldl (fun d p => dictInsert d p.2.1.id p.2.2)
         prior.id_to_sha) := by
  unfold step6
  rw [if_neg (by simpa using h)]
  rfl

/-- C1: at an index built fresh from two passages the builder assigns
surrogate keys 1 and 2 and its reverse map (`faiss_to_chunkid`) sends key
1 to passage "A" and key 2 to "B"; yet the semantic path of
`hybrid_search` hydrates neighbor id 1 positionally to the passage at list
index 1 (passage "B") and discards neighbor id 2 as out of range, so the
returned passage is not the one whose surrogate key equals the neighbor
id and the reverse ID map is never consulted. -/
theorem c1_semantic_hydration_mismatch :
    (runBuilder (fun s => s) .missing ⟨[], [], [], [], []⟩
        [⟨"A", "dA", "ta"⟩, ⟨"B", "dB", "tb"⟩]).map
      (fun out =>
        (dlookup out.faiss_to_chunkid 1,
         dlookup out.faiss_to_chunkid 2,
         semanticHits out.state.saved_chunks [(1 : Int)],
         semanticHits out.state.saved_chunks [(2 : Int)]))
      = some (some "A", some "B", [⟨"B", "tb", "vector"⟩], []) := by rfl

/-- C2: counterexample — a builder run over a corrupted index file, with
prior state holding indexed passage "A" and a feed adding passage "B",
leaves `id_to_sha` still mapping "A" (to its old fingerprint) while the
fresh vector index and `id_to_index` know nothing of "A": the
`chunk_id → fingerprint` map IS desynchronized from the fresh vector
index after such a run. -/
theorem c2_counterexample :
    (runBuilder (fun s => s) .corrupt
        ⟨[(1, "t1")], [⟨"A", "dA", "t1"⟩], [("A", 1)], [("A", "t1")],
         [("A", "t1")]⟩
        [⟨"A", "dA", "t1"⟩, ⟨"B", "dB", "t2"⟩]).map
      (fun out =>
        (out.state.faissEntries, dlookup out.state.id_to_index "A",
         dlookup out.state.id_to_sha "A"))
      = some ([(1, "t2")], none, some "t1") := by rfl

/-- C2 (amended): when the prior vector index file is corrupted and the
run has chunks to embed, the vector index, persisted passage list and
`chunk_id → surrogate_key` map are reset together as a unit — afterwards
they hold exactly the passages embedded in this run — but the
`chunk_id → fingerprint` map is NOT reset: at every chunk id outside the
re-embedded set it keeps its prior entry, so it can remain desynchronized
from the fresh vector index. -/
theorem c2_corrupt_reset_unit (sha : String → String) (prior : IndexState)
    (feed : List ChunkRec)
    (h : new_chunk_filter sha prior.id_to_sha feed ≠ []) :
    (runBuilderCore sha .corrupt prior feed).state.faissEntries
        = (assignIds 1 (new_chunk_filter sha prior.id_to_sha feed)).map
            (fun p => (p.1, p.2.1.text)) ∧
    (runBuilderCore sha .corrupt prior feed).state.saved_chunks
        = (new_chunk_filter sha prior.id_to_sha feed).map Prod.fst ∧
    (∀ a, a ∉ (new_chunk_filter sha prior.id_to_sha feed).map (fun p => p.1.id) →
       dlookup (runBuilderCore sha .corrupt prior feed).state.id_to_index a = none) ∧
    (∀ a, a ∉ (new_chunk_filter sha prior.id_to_sha feed).map (fun p => p.1.id) →
       dlookup (runBuilderCore sha .corrupt prior feed).state.id_to_sha a
         = dlookup prior.id_to_sha a) := by
  have hs := step6_corrupt prior (new_chunk_filter sha prior.id_to_sha feed) h
  refine ⟨?_, ?_, ?_, ?_⟩
  · show (step6 .corrupt prior (new_chunk_filter sha prior.id_to_sha feed)).1 = _
    rw [hs]
  · show (step6 .corrupt prior (new_chunk_filter sha prior.id_to_sha feed)).2.1 = _
    rw [hs]
  · intro a ha
    show dlookup (step6 .corrupt prior (new_chunk_filter sha prior.id_to_sha feed)).2.2.1 a = none
    rw [hs]
    have ha' : a ∉ (assignIds 1 (new_chunk_filter sha prior.id_to_sha feed)).map
        (fun p => p.2.1.id) := by
      rw [assignIds_map_key (fun q : ChunkRec × String => q.1.id)]
      exact ha
    exact dlookup_foldl_dictInsert_not_mem
      (fun p : Nat × ChunkRec × String => p.2.1.id)
      (fun p : Nat × ChunkRec × String => p.1) _ a ha' []
  · intro a ha
    show dlookup (step6 .corrupt prior (new_chunk_filter sha prior.id_to_sha feed)).2.2.2 a
      = dlookup prior.id_to_sha a
    rw [hs]
    have ha' : a ∉ (assignIds 1 (new_chunk_filter sha prior.id_to_sha feed)).map
        (fun p => p.2.1.id) := by
      rw [assignIds_map_key (fun q : ChunkRec × String => q.1.id)]
      exact ha
    exact dlookup_foldl_dictInsert_not_mem
      (fun p : Nat × ChunkRec × String => p.2.1.id)
      (fun p : Nat × ChunkRec × String => p.2.2) _ a ha' prior.id_to_sha

/-- C2 witness: the amended reset property at the concrete corrupted-run
scenario of the counterexample, evaluated at chunk id "A". -/
theorem c2_corrupt_reset_unit_witness :
    new_chunk_filter (fun s => s) [("A", "t1")]
        [⟨"A", "dA", "t1"⟩, ⟨"B", "dB", "t2"⟩] ≠ [] ∧
    dlookup (runBuilderCore (fun s => s) .corrupt
        ⟨[(1, "t1")], [⟨"A", "dA", "t1"⟩], [("A", 1)], [("A", "t1")],
         [("A", "t1")]⟩
        [⟨"A", "dA", "t1"⟩, ⟨"B", "dB", "t2"⟩]).state.id_to_index "A" = none := by
  constructor
  · decide
  · exact (c2_corrupt_reset_unit (fun s => s)
      ⟨[(1, "t1")], [⟨"A", "dA", "t1"⟩], [("A", 1)], [("A", "t1")],
       [("A", "t1")]⟩
      [⟨"A", "dA", "t1"⟩, ⟨"B", "dB", "t2"⟩] (by decide)).2.2.1 "A" (by decide)

/-- C9: counterexample — on a non-greeting query with an API key
configured, a Groq request that raises and an Ollama fallback that also
raises make `generate_answer` return the empty string, not a clearly
marked error string. -/
theorem c9_counterexample :
    generate_answer false (some "k") none none = "" := rfl

/-- C9 (amended): `generate_answer` always returns a string; the greeting
path returns the nonempty canned greeting, and a missing API key yields
the nonempty marked error string from `query_groq`, but when the primary
provider raises and the fallback also raises the returned text is the
empty string (and when the fallback produces output, the stripped output,
which is empty for whitespace-only output) — not a marked error string. -/
theorem c9_failure_text (greeting : Bool) (apiKey : Option String)
    (http ollamaOut : Option String) :
    (greeting = true →
       generate_answer greeting apiKey http ollamaOut = greetingReply ∧
       greetingReply ≠ "") ∧
    (greeting = false → apiKey = none →
       generate_answer greeting apiKey http ollamaOut
           = "❌ Error: GROQ_API_KEY not found in .env file." ∧
       "❌ Error: GROQ_API_KEY not found in .env file." ≠ "") ∧
    (greeting = false → apiKey.isSome → http = none → ollamaOut = none →
       generate_answer greeting apiKey http ollamaOut = "") ∧
    (greeting = false → apiKey.isSome → http = none → ∀ s, ollamaOut = some s →
       generate_answer greeting apiKey http ollamaOut = s.trim) := by
  refine ⟨?_, ?_, ?_, ?_⟩
  · intro hg
    subst hg
    exact ⟨rfl, by decide⟩
  · intro hg hk
    subst hg
    subst hk
    exact ⟨rfl, by decide⟩
  · intro hg hk hh ho
    subst hg
    subst hh
    subst ho
    obtain ⟨k, hk2⟩ := Option.isSome_iff_exists.mp hk
    subst hk2
    rfl
  · intro hg hk hh s ho
    subst hg
    subst hh
    subst ho
    obtain ⟨k, hk2⟩ := Option.isSome_iff_exists.mp hk
    subst hk2
    rfl

/-- C9 witness: the missing-API-key failure path at concrete inputs. -/
theorem c9_failure_text_witness :
    generate_answer false none none none
        = "❌ Error: GROQ_API_KEY not found in .env file." ∧
    "❌ Error: GROQ_API_KEY not found in .env file." ≠ "" :=
  (c9_failure_text false none none none).2.1 rfl rfl

theorem step6_nil (ifile : IndexFile) (prior : IndexState) :
    step6 ifile prior []
      = (prior.faissEntries, prior.saved_chunks, prior.id_to_index,
         prior.id_to_sha) := rfl

/-- On a readable index file with a nonempty new-chunk set, step 6 appends
to the prior artifacts, assigning surrogate keys from
`next_faiss_id prior.id_to_index`. -/
theorem step6_ok (prior : IndexState) (nc : List (ChunkRec × String))
    (h : nc ≠ []) :
    step6 .ok prior nc =
      (prior.faissEntries
         ++ (assignIds (next_faiss_id prior.id_to_index) nc).map
              (fun p => (p.1, p.2.1.text)),
       prior.saved_chunks ++ nc.map Prod.fst,
       (assignIds (next_faiss_id prior.id_to_index) nc).foldl
         (fun d p => dictInsert d p.2.1.id p.1) prior.id_to_index,
       (assignIds (next_faiss_id prior.id_to_index) nc).foldl
         (fun d p => dictInsert d p.2.1.id p.2.2) prior.id_to_sha) := by
  unfold step6
  rw [if_neg (by simpa using h)]

/-- A filtering list scan that can keep only the (unique) element `r`
keeps exactly `[r]` when `r` is present. -/
theorem filter_eq_single {α β : Type} (l : List α) (p q : α → Bool)
    (f : α → β) (hpq : ∀ c, p c = true → q c = true)
    (hnd : ((l.filter q).map f).Nodup) (r : α) (hr : r ∈ l)
    (hpr : p r = true) (hall : ∀ c ∈ l, p c = true → c = r) :
    l.filter p = [r] := by
  induction l with
  | nil => cases hr
  | cons c rest ih =>
    by_cases hc : p c = true
    · have hcr : c = r := hall c (List.mem_cons_self _ _) hc
      subst hcr
      rw [List.filter_cons_of_pos hc]
      have hrest_nil : rest.filter p = [] := by
        rw [List.filter_eq_nil_iff]
        intro b hb
        intro hpb
        have hbr : b = c := hall b (List.mem_cons_of_mem _ hb) hpb
        subst hbr
        rw [List.filter_cons_of_pos (hpq _ hc), List.map_cons,
          List.nodup_cons] at hnd
        exact hnd.1 (List.mem_map_of_mem f (List.mem_filter.mpr ⟨hb, hpq _ hpb⟩))
      rw [hrest_nil]
    · have hcr : r ∈ rest := by
        rcases List.mem_cons.mp hr with h | h
        · exact absurd (h ▸ hpr) hc
        · exact h
      rw [List.filter_cons_of_neg hc]
      have hnd' : ((rest.filter q).map f).Nodup := by
        by_cases hq : q c = true
        · rw [List.filter_cons_of_pos hq, List.map_cons, List.nodup_cons] at hnd
          exact hnd.2
        · rwa [List.filter_cons_of_neg hq] at hnd
      exact ih hnd' hcr (fun b hb hpb => hall b (List.mem_cons_of_mem _ hb) hpb)

/-- C5: counterexample — index passages "A" (text t1) and "B", then rerun
the builder with "A"'s text changed to t2: the second run embeds exactly
one passage, but the persisted passage list ends as records with chunk ids
["A", "B", "A"] — the stale "A" record is not replaced, so the list does
contain two records with the same chunk_id. -/
theorem c5_counterexample :
    ((runBuilder (fun s => s) .missing ⟨[], [], [], [], []⟩
        [⟨"A", "dA", "t1"⟩, ⟨"B", "dB", "tb"⟩]).bind
      (fun out1 => runBuilder (fun s => s) .ok out1.state
        [⟨"A", "dA", "t2"⟩, ⟨"B", "dB", "tb"⟩])).map
      (fun out => (out.embedded, out.state.saved_chunks.map ChunkRec.id))
      = some (1, ["A", "B", "A"]) := by rfl

/-- C5 (amended): when exactly one passage's text changes under its
chunk_id (all other valid passages unchanged, chunk ids distinct), the
next run re-embeds exactly that passage; the new record is APPENDED to the
persisted passage list while the stale record remains in place (so the
list can then hold two records with that chunk_id); the ID maps point the
chunk_id at the new surrogate key and fingerprint; entries for every other
chunk_id are untouched. -/
theorem c5_changed_passage_appended (sha : String → String)
    (prior : IndexState) (feed : List ChunkRec) (r : ChunkRec)
    (hnd : ((feed.filter (fun c => decide (validRec c))).map ChunkRec.id).Nodup)
    (hr : r ∈ feed) (hv : validRec r)
    (hchanged : dlookup prior.id_to_sha r.id ≠ some (sha r.text))
    (hrest : ∀ c ∈ feed, c ≠ r → validRec c →
       dlookup prior.id_to_sha c.id = some (sha c.text)) :
    new_chunk_filter sha prior.id_to_sha feed = [(r, sha r.text)] ∧
    (runBuilderCore sha .ok prior feed).embedded = 1 ∧
    (runBuilderCore sha .ok prior feed).state.saved_chunks
        = prior.saved_chunks ++ [r] ∧
    (runBuilderCore sha .ok prior feed).state.faissEntries
        = prior.faissEntries ++ [(next_faiss_id prior.id_to_index, r.text)] ∧
    dlookup (runBuilderCore sha .ok prior feed).state.id_to_index r.id
        = some (next_faiss_id prior.id_to_index) ∧
    dlookup (runBuilderCore sha .ok prior feed).state.id_to_sha r.id
        = some (sha r.text) ∧
    (∀ a, a ≠ r.id →
       dlookup (runBuilderCore sha .ok prior feed).state.id_to_index a
           = dlookup prior.id_to_index a ∧
       dlookup (runBuilderCore sha .ok prior feed).state.id_to_sha a
           = dlookup prior.id_to_sha a) := by
  have hall : ∀ c ∈ feed,
      decide (keepRec sha prior.id_to_sha c) = true → c = r := by
    intro c hcmem hc
    rw [decide_eq_true_eq] at hc
    by_contra hne
    exact hc.2 (hrest c hcmem hne hc.1)
  have hpq : ∀ c : ChunkRec,
      decide (keepRec sha prior.id_to_sha c) = true →
      decide (validRec c) = true := by
    intro c hc
    rw [decide_eq_true_eq] at hc ⊢
    exact hc.1
  have hfil : feed.filter (fun c => decide (keepRec sha prior.id_to_sha c))
      = [r] :=
    filter_eq_single feed _ (fun c => decide (validRec c)) ChunkRec.id hpq hnd
      r hr (by rw [decide_eq_true_eq]; exact ⟨hv, hchanged⟩) hall
  have hnc : new_chunk_filter sha prior.id_to_sha feed = [(r, sha r.text)] := by
    rw [new_chunk_filter_eq, hfil]
    rfl
  refine ⟨hnc, ?_, ?_, ?_, ?_, ?_, ?_⟩
  · show (new_chunk_filter sha prior.id_to_sha feed).length = 1
    rw [hnc]
    rfl
  · show (step6 .ok prior (new_chunk_filter sha prior.id_to_sha feed)).2.1 = _
    rw [hnc, step6_ok prior _ (by simp)]
    rfl
  · show (step6 .ok prior (new_chunk_filter sha prior.id_to_sha feed)).1 = _
    rw [hnc, step6_ok prior _ (by simp)]
    rfl
  · show dlookup
        (step6 .ok prior (new_chunk_filter sha prior.id_to_sha feed)).2.2.1 r.id
      = some (next_faiss_id prior.id_to_index)
    rw [hnc, step6_ok prior _ (by simp)]
    exact dlookup_dictInsert_self prior.id_to_index r.id
      (next_faiss_id prior.id_to_index)
  · show dlookup
        (step6 .ok prior (new_chunk_filter sha prior.id_to_sha feed)).2.2.2 r.id
      = some (sha r.text)
    rw [hnc, step6_ok prior _ (by simp)]
    exact dlookup_dictInsert_self prior.id_to_sha r.id (sha r.text)
  · intro a ha
    constructor
    · show dlookup
          (step6 .ok prior (new_chunk_filter sha prior.id_to_sha feed)).2.2.1 a
        = dlookup prior.id_to_index a
      rw [hnc, step6_ok prior _ (by simp)]
      exact dlookup_dictInsert_ne prior.id_to_index r.id _ a ha
    · show dlookup
          (step6 .ok prior (new_chunk_filter sha prior.id_to_sha feed)).2.2.2 a
        = dlookup prior.id_to_sha a
      rw [hnc, step6_ok prior _ (by simp)]
      exact dlookup_dictInsert_ne prior.id_to_sha r.id _ a ha

/-- C5 witness: the amended behavior at the concrete two-run scenario of
the counterexample (prior state as left by the first run, feed with "A"'s
text changed). -/
theorem c5_changed_passage_appended_witness :
    (runBuilderCore (fun s => s) .ok
        ⟨[(1, "t1"), (2, "tb")],
         [⟨"A", "dA", "t1"⟩, ⟨"B", "dB", "tb"⟩],
         [("A", 1), ("B", 2)], [("A", "t1"), ("B", "tb")],
         [("A", "t1"), ("B", "tb")]⟩
        [⟨"A", "dA", "t2"⟩, ⟨"B", "dB", "tb"⟩]).embedded = 1 ∧
    (runBuilderCore (fun s => s) .ok
        ⟨[(1, "t1"), (2, "tb")],
         [⟨"A", "dA", "t1"⟩, ⟨"B", "dB", "tb"⟩],
         [("A", 1), ("B", 2)], [("A", "t1"), ("B", "tb")],
         [("A", "t1"), ("B", "tb")]⟩
        [⟨"A", "dA", "t2"⟩, ⟨"B", "dB", "tb"⟩]).state.saved_chunks
      = [⟨"A", "dA", "t1"⟩, ⟨"B", "dB", "tb"⟩, ⟨"A", "dA", "t2"⟩] := by
  have h := c5_changed_passage_appended (fun s => s)
    ⟨[(1, "t1"), (2, "tb")],
     [⟨"A", "dA", "t1"⟩, ⟨"B", "dB", "tb"⟩],
     [("A", 1), ("B", 2)], [("A", "t1"), ("B", "tb")],
     [("A", "t1"), ("B", "tb")]⟩
    [⟨"A", "dA", "t2"⟩, ⟨"B", "dB", "tb"⟩] ⟨"A", "dA", "t2"⟩
    (by decide) (by decide) (by decide) (by decide) (by decide)
  exact ⟨h.2.1, h.2.2.1⟩

/-- On a missing index file with a nonempty new-chunk set, step 6 builds a
fresh vector index but keeps the loaded passage list and maps. -/
theorem step6_missing (prior : IndexState) (nc : List (ChunkRec × String))
    (h : nc ≠ []) :
    step6 .missing prior nc =
      ((assignIds (next_faiss_id prior.id_to_index) nc).map
          (fun p => (p.1, p.2.1.text)),
       prior.saved_chunks ++ nc.map Prod.fst,
       (assignIds (next_faiss_id prior.id_to_index) nc).foldl
         (fun d p => dictInsert d p.2.1.id p.1) prior.id_to_index,
       (assignIds (next_faiss_id prior.id_to_index) nc).foldl
         (fun d p => dictInsert d p.2.1.id p.2.2) prior.id_to_sha) := by
  unfold step6
  rw [if_neg (by simpa using h)]
  rfl

/-- Every chunk step 5 keeps is a valid record. -/
theorem new_chunk_filter_valid (sha : String → String)
    (m : List (String × String)) (feed : List ChunkRec) :
    ∀ p ∈ new_chunk_filter sha m feed, validRec p.1 := by
  rw [new_chunk_filter_eq]
  intro p hp
  obtain ⟨c, hc, rfl⟩ := List.mem_map.mp hp
  have h2 := (List.mem_filter.mp hc).2
  rw [decide_eq_true_eq] at h2
  exact h2.1

/-- Every passage in step 6's output list comes from the loaded passage
list or from the kept new chunks. -/
theorem step6_saved_mem (ifile : IndexFile) (prior : IndexState)
    (nc : List (ChunkRec × String)) :
    ∀ c ∈ (step6 ifile prior nc).2.1,
      c ∈ prior.saved_chunks ∨ c ∈ nc.map Prod.fst := by
  by_cases h : nc.isEmpty
  · have hnil : nc = [] := by simpa [List.isEmpty_iff] using h
    subst hnil
    rw [step6_nil]
    intro c hc
    exact Or.inl hc
  · have hne : nc ≠ [] := by simpa [List.isEmpty_iff] using h
    cases ifile with
    | ok =>
      rw [step6_ok prior nc hne]
      intro c hc
      exact List.mem_append.mp hc
    | missing =>
      rw [step6_missing prior nc hne]
      intro c hc
      exact List.mem_append.mp hc
    | corrupt =>
      rw [step6_corrupt prior nc hne]
      intro c hc
      exact Or.inr hc

/-- `id_to_sha` lookups at a chunk id outside the kept set are unchanged
by step 6, whatever the state of the index file. -/
theorem step6_id_to_sha_untouched (ifile : IndexFile) (prior : IndexState)
    (nc : List (ChunkRec × String)) (a : String)
    (ha : a ∉ nc.map (fun p => p.1.id)) :
    dlookup (step6 ifile prior nc).2.2.2 a = dlookup prior.id_to_sha a := by
  by_cases h : nc.isEmpty
  · have hnil : nc = [] := by simpa [List.isEmpty_iff] using h
    subst hnil
    rw [step6_nil]
  · have hne : nc ≠ [] := by simpa [List.isEmpty_iff] using h
    have ha' : ∀ n : Nat,
        a ∉ (assignIds n nc).map (fun p => p.2.1.id) := by
      intro n
      rw [assignIds_map_key (fun q : ChunkRec × String => q.1.id)]
      exact ha
    cases ifile with
    | ok =>
      rw [step6_ok prior nc hne]
      exact dlookup_foldl_dictInsert_not_mem
        (fun p : Nat × ChunkRec × String => p.2.1.id)
        (fun p : Nat × ChunkRec × String => p.2.2) _ a (ha' _) prior.id_to_sha
    | missing =>
      rw [step6_missing prior nc hne]
      exact dlookup_foldl_dictInsert_not_mem
        (fun p : Nat × ChunkRec × String => p.2.1.id)
        (fun p : Nat × ChunkRec × String => p.2.2) _ a (ha' _) prior.id_to_sha
    | corrupt =>
      rw [step6_corrupt prior nc hne]
      exact dlookup_foldl_dictInsert_not_mem
        (fun p : Nat × ChunkRec × String => p.2.1.id)
        (fun p : Nat × ChunkRec × String => p.2.2) _ a (ha' _) prior.id_to_sha

/-- C10: a feed record with an empty/missing `id` or `text` is silently
skipped by the builder: step 5 keeps only valid records (so the invalid
record is never fingerprinted or embedded), the record is never appended
to the persisted passage list, its `(id, text)` document is never inserted
into the lexical index, and the `chunk_id → fingerprint` map changes only
at the ids of kept (valid) records. -/
theorem c10_invalid_records_skipped (sha : String → String)
    (ifile : IndexFile) (prior : IndexState) (feed : List ChunkRec)
    (hsaved : ∀ c ∈ prior.saved_chunks, validRec c)
    (hwh : ∀ p ∈ prior.whoosh, p.1 ≠ "" ∧ p.2 ≠ "")
    (r : ChunkRec) (hbad : r.id = "" ∨ r.text = "") :
    (∀ p ∈ new_chunk_filter sha prior.id_to_sha feed, validRec p.1 ∧ p.1 ≠ r) ∧
    r ∉ (runBuilderCore sha ifile prior feed).state.saved_chunks ∧
    (r.id, r.text) ∉ (runBuilderCore sha ifile prior feed).state.whoosh ∧
    (∀ a, a ∉ (new_chunk_filter sha prior.id_to_sha feed).map (fun p => p.1.id) →
       dlookup (runBuilderCore sha ifile prior feed).state.id_to_sha a
         = dlookup prior.id_to_sha a) := by
  have hkept : ∀ p ∈ new_chunk_filter sha prior.id_to_sha feed,
      validRec p.1 ∧ p.1 ≠ r := by
    intro p hp
    have hv := new_chunk_filter_valid sha prior.id_to_sha feed p hp
    exact ⟨hv, fun he => hv (he ▸ hbad)⟩
  have hsaved1 : ∀ c ∈ (step6 ifile prior
      (new_chunk_filter sha prior.id_to_sha feed)).2.1, validRec c := by
    intro c hc
    rcases step6_saved_mem ifile prior _ c hc with h | h
    · exact hsaved c h
    · obtain ⟨p, hp, rfl⟩ := List.mem_map.mp h
      exact (hkept p hp).1
  refine ⟨hkept, ?_, ?_, ?_⟩
  · show r ∉ (step6 ifile prior (new_chunk_filter sha prior.id_to_sha feed)).2.1
    intro hmem
    exact (hsaved1 r hmem) hbad
  · show (r.id, r.text) ∉ whooshSync prior.whoosh
      (step6 ifile prior (new_chunk_filter sha prior.id_to_sha feed)).2.1
    intro hmem
    unfold whooshSync at hmem
    rcases List.mem_append.mp hmem with h | h
    · have h2 := hwh _ h
      rcases hbad with hb | hb
      · exact h2.1 hb
      · exact h2.2 hb
    · obtain ⟨c, hc, hpair⟩ := List.mem_map.mp h
      have hcv := hsaved1 c (List.mem_of_mem_filter hc)
      have hid : c.id = r.id := congrArg Prod.fst hpair
      have htext : c.text = r.text := congrArg Prod.snd hpair
      rcases hbad with hb | hb
      · exact hcv (Or.inl (hid.trans hb))
      · exact hcv (Or.inr (htext.trans hb))
  · intro a ha
    show dlookup
        (step6 ifile prior (new_chunk_filter sha prior.id_to_sha feed)).2.2.2 a
      = dlookup prior.id_to_sha a
    exact step6_id_to_sha_untouched ifile prior _ a ha

/-- C10 witness: a record with an empty id in a concrete two-record feed
is not persisted, and the fingerprint map is untouched at its (empty) id. -/
theorem c10_invalid_records_skipped_witness :
    (⟨"", "d", "tx"⟩ : ChunkRec) ∉
      (runBuilderCore (fun s => s) .missing ⟨[], [], [], [], []⟩
        [⟨"", "d", "tx"⟩, ⟨"C", "d", "tc"⟩]).state.saved_chunks ∧
    dlookup (runBuilderCore (fun s => s) .missing ⟨[], [], [], [], []⟩
        [⟨"", "d", "tx"⟩, ⟨"C", "d", "tc"⟩]).state.id_to_sha "" = none := by
  have h := c10_invalid_records_skipped (fun s => s) .missing
    ⟨[], [], [], [], []⟩ [⟨"", "d", "tx"⟩, ⟨"C", "d", "tc"⟩]
    (by intro c hc; cases hc) (by intro p hp; cases hp)
    ⟨"", "d", "tx"⟩ (Or.inl rfl)
  exact ⟨h.2.1, h.2.2.2 "" (by decide)⟩

/-! ## Sorting lemmas for the reranker -/

theorem insertDesc_perm {α : Type} (x : α × ℚ) (l : List (α × ℚ)) :
    (insertDesc x l).Perm (x :: l) := by
  induction l with
  | nil => exact List.Perm.refl _
  | cons y ys ih =>
    unfold insertDesc
    by_cases h : y.2 ≤ x.2
    · rw [if_pos h]
    · rw [if_neg h]
      exact (List.Perm.cons y ih).trans (List.Perm.swap x y ys)

theorem sortDesc_perm {α : Type} (l : List (α × ℚ)) :
    (sortDesc l).Perm l := by
  induction l with
  | nil => exact List.Perm.refl _
  | cons c cs ih =>
    exact (insertDesc_perm c (sortDesc cs)).trans (List.Perm.cons c ih)

theorem insertDesc_sorted {α : Type} (x : α × ℚ) (l : List (α × ℚ))
    (hl : l.Pairwise (fun a b => b.2 ≤ a.2)) :
    (insertDesc x l).Pairwise (fun a b => b.2 ≤ a.2) := by
  induction l with
  | nil => simp [insertDesc]
  | cons y ys ih =>
    rcases List.pairwise_cons.mp hl with ⟨hy, hys⟩
    unfold insertDesc
    by_cases h : y.2 ≤ x.2
    · rw [if_pos h]
      refine List.pairwise_cons.mpr ⟨?_, hl⟩
      intro b hb
      rcases List.mem_cons.mp hb with hb | hb
      · exact hb ▸ h
      · exact le_trans (hy b hb) h
    · rw [if_neg h]
      refine List.pairwise_cons.mpr ⟨?_, ih hys⟩
      intro b hb
      have hb2 := (insertDesc_perm x ys).mem_iff.mp hb
      rcases List.mem_cons.mp hb2 with hb2 | hb2
      · exact hb2 ▸ le_of_not_le h
      · exact hy b hb2

theorem sortDesc_sorted {α : Type} (l : List (α × ℚ)) :
    (sortDesc l).Pairwise (fun a b => b.2 ≤ a.2) := by
  induction l with
  | nil => simp [sortDesc]
  | cons c cs ih => exact insertDesc_sorted c (sortDesc cs) ih

theorem insertDesc_filter {α : Type} (x : α × ℚ) (l : List (α × ℚ)) (q : ℚ) :
    (insertDesc x l).filter (fun p => decide (p.2 = q))
      = if x.2 = q then x :: l.filter (fun p => decide (p.2 = q))
        else l.filter (fun p => decide (p.2 = q)) := by
  induction l with
  | nil =>
    unfold insertDesc
    by_cases h : x.2 = q <;> simp [h]
  | cons y ys ih =>
    unfold insertDesc
    by_cases h : y.2 ≤ x.2
    · rw [if_pos h]
      by_cases hx : x.2 = q <;> simp [List.filter_cons, hx]
    · rw [if_neg h]
      by_cases hy : y.2 = q
      · by_cases hx : x.2 = q
        · exact absurd (le_of_eq (hy.trans hx.symm)) h
        · simp [List.filter_cons, hy, hx, ih]
      · simp [List.filter_cons, hy, ih]

/-- Stability of `sortDesc`: elements of each fixed score keep their
original relative order. -/
theorem sortDesc_filter {α : Type} (l : List (α × ℚ)) (q : ℚ) :
    (sortDesc l).filter (fun p => decide (p.2 = q))
      = l.filter (fun p => decide (p.2 = q)) := by
  induction l with
  | nil => rfl
  | cons c cs ih =>
    show (insertDesc c (sortDesc cs)).filter (fun p => decide (p.2 = q)) = _
    rw [insertDesc_filter]
    by_cases hc : c.2 = q <;> simp [List.filter_cons, hc, ih]

/-- C6: `rerank` returns `[]` on an empty candidate list for every scorer
(in particular one that always fails, i.e. without invoking the relevance
model); when every `(query, text)` pair is scored, it returns the first
`keep_n` of the stable descending sort of the score-attached candidates —
a permutation of the scored candidates, sorted by descending score, with
candidates of equal score in original order; and three candidates scored
0.9, 0.4, 0.7 reranked to 2 yield the 0.9- and then the 0.7-candidate. -/
theorem c6_rerank_spec (score : String → String → Option ℚ) (query : String)
    (cs : List Hit) (keep_n : Nat) :
    (∀ failScore : String → String → Option ℚ,
       rerank failScore query [] keep_n = some []) ∧
    (∀ scores : List ℚ,
       cs.mapM (fun c => score query c.text) = some scores →
       rerank score query cs keep_n
           = some ((sortDesc (cs.zip scores)).take keep_n) ∧
       (sortDesc (cs.zip scores)).Perm (cs.zip scores) ∧
       (sortDesc (cs.zip scores)).Pairwise (fun a b => b.2 ≤ a.2) ∧
       (∀ q : ℚ, (sortDesc (cs.zip scores)).filter (fun p => decide (p.2 = q))
           = (cs.zip scores).filter (fun p => decide (p.2 = q)))) ∧
    rerank
        (fun _ t => if t = "t1" then some (9/10)
          else if t = "t2" then some (4/10) else some (7/10)) "q"
        [⟨"1", "t1", "vector"⟩, ⟨"2", "t2", "vector"⟩, ⟨"3", "t3", "vector"⟩] 2
      = some [(⟨"1", "t1", "vector"⟩, 9/10), (⟨"3", "t3", "vector"⟩, 7/10)] := by
  refine ⟨fun _ => rfl, ?_, ?_⟩
  · intro scores hsc
    by_cases hcs : cs.isEmpty
    · have hnil : cs = [] := by simpa [List.isEmpty_iff] using hcs
      subst hnil
      simp only [List.mapM_nil] at hsc
      have hs0 : scores = [] := by
        simpa using hsc.symm
      subst hs0
      exact ⟨by simp [rerank, sortDesc], List.Perm.refl _, by simp [sortDesc],
        fun q => rfl⟩
    · refine ⟨?_, sortDesc_perm _, sortDesc_sorted _, fun q => sortDesc_filter _ q⟩
      unfold rerank
      rw [if_neg (by simpa using hcs)]
      rw [hsc]
      rfl
  · simp +decide only [rerank, List.mapM, List.mapM.loop, List.isEmpty]
    norm_num [sortDesc, insertDesc]

/-- C6 witness: the general characterization applied to the concrete
three-candidate list with scores 0.9, 0.4, 0.7 and `keep_n = 2`. -/
theorem c6_rerank_spec_witness :
    rerank
        (fun _ t => if t = "t1" then some (9/10)
          else if t = "t2" then some (4/10) else some (7/10)) "q"
        [⟨"1", "t1", "vector"⟩, ⟨"2", "t2", "vector"⟩, ⟨"3", "t3", "vector"⟩] 2
      = some ((sortDesc
          ([⟨"1", "t1", "vector"⟩, ⟨"2", "t2", "vector"⟩,
            (⟨"3", "t3", "vector"⟩ : Hit)].zip [9/10, 4/10, 7/10])).take 2) :=
  ((c6_rerank_spec
      (fun _ t => if t = "t1" then some (9/10)
        else if t = "t2" then some (4/10) else some (7/10)) "q"
      [⟨"1", "t1", "vector"⟩, ⟨"2", "t2", "vector"⟩, ⟨"3", "t3", "vector"⟩]
      2).2.1 [9/10, 4/10, 7/10]
      (by simp +decide [List.mapM, List.mapM.loop])).1

/-! ## Fusion lemmas -/

theorem dlookup_append_none_left {α β : Type} [DecidableEq α]
    (d1 d2 : List (α × β)) (a : α) (h : dlookup (d1 ++ d2) a = none) :
    dlookup d1 a = none := by
  induction d1 with
  | nil => rfl
  | cons p rest ih =>
    obtain ⟨k, v⟩ := p
    simp only [List.cons_append, dlookup] at h ⊢
    by_cases hk : k = a
    · rw [if_pos hk] at h
      cases h
    · rw [if_neg hk] at h ⊢
      exact ih h

/-- The second fusion phase only appends: the dict after inserting the
vector hits is the keyword dict followed by entries for vector hits whose
text was not already a key. -/
theorem phase2_shape (f : List Hit) :
    ∀ d1 : List (String × Hit), ∃ ext,
      f.foldl (fun d h => if (dlookup d h.text).isSome then d
        else dictInsert d h.text h) d1 = d1 ++ ext ∧
      ∀ p ∈ ext, p.2 ∈ f ∧ p.1 = p.2.text ∧ dlookup d1 p.1 = none := by
  induction f with
  | nil =>
    intro d1
    exact ⟨[], by simp, by simp⟩
  | cons h rest ih =>
    intro d1
    simp only [List.foldl_cons]
    by_cases hs : (dlookup d1 h.text).isSome
    · rw [if_pos hs]
      obtain ⟨ext, he, hp⟩ := ih d1
      refine ⟨ext, he, ?_⟩
      intro p hpm
      obtain ⟨h1, h2, h3⟩ := hp p hpm
      exact ⟨List.mem_cons_of_mem _ h1, h2, h3⟩
    · rw [if_neg hs]
      have hnone : dlookup d1 h.text = none :=
        Option.not_isSome_iff_eq_none.mp hs
      rw [dictInsert_of_lookup_none d1 h.text h hnone]
      obtain ⟨ext, he, hp⟩ := ih (d1 ++ [(h.text, h)])
      refine ⟨(h.text, h) :: ext, ?_, ?_⟩
      · rw [he, List.append_assoc]
        rfl
      · intro p hpm
        rcases List.mem_cons.mp hpm with hpe | hpe
        · subst hpe
          exact ⟨List.mem_cons_self _ _, rfl, hnone⟩
        · obtain ⟨h1, h2, h3⟩ := hp p hpe
          exact ⟨List.mem_cons_of_mem _ h1, h2,
            dlookup_append_none_left d1 [(h.text, h)] p.1 h3⟩

/-- C3: fusion properties of `hybrid_search` — given keyword-tagged
lexical hits and vector-tagged semantic hits, the fused list has at most
`k` entries, every entry is one of the hits, a semantic entry appears only
when no lexical hit shares its text, and no semantic entry ever precedes a
lexical entry (lexical hits first, in insertion order, then semantic
fill-ins). -/
theorem c3_fusion (w f : List Hit) (k : Nat)
    (hw : ∀ h ∈ w, h.source_type = "keyword")
    (hf : ∀ h ∈ f, h.source_type = "vector") :
    (hybrid_fuse w f k).length ≤ k ∧
    (∀ h ∈ hybrid_fuse w f k, h ∈ w ∨ h ∈ f) ∧
    (∀ h ∈ hybrid_fuse w f k, h.source_type = "vector" →
       ∀ g ∈ w, g.text ≠ h.text) ∧
    (hybrid_fuse w f k).Pairwise
      (fun a b => ¬(a.source_type = "vector" ∧ b.source_type = "keyword")) := by
  have hd1 : ∀ p ∈ w.foldl (fun d h => dictInsert d h.text h)
      ([] : List (String × Hit)), p.2 ∈ w ∧ p.1 = p.2.text := by
    refine forall_mem_foldl_dictInsert Hit.text (fun h => h) w
      (fun p => p.2 ∈ w ∧ p.1 = p.2.text) ?_ [] (by simp)
    intro x hx
    exact ⟨hx, rfl⟩
  have hkey : ∀ g ∈ w, (dlookup (w.foldl (fun d h => dictInsert d h.text h)
      ([] : List (String × Hit))) g.text).isSome := by
    intro g hg
    exact isSome_dlookup_foldl_dictInsert Hit.text (fun h => h) w g hg []
  obtain ⟨ext, hd2, hext⟩ :=
    phase2_shape f (w.foldl (fun d h => dictInsert d h.text h) [])
  have hfuse0 : hybrid_fuse w f k
      = ((((w.foldl (fun d h => dictInsert d h.text h) []) ++ ext).map
          Prod.snd).take k) := by
    show ((f.foldl (fun d h => if (dlookup d h.text).isSome then d
        else dictInsert d h.text h)
        (w.foldl (fun d h => dictInsert d h.text h) [])).map Prod.snd).take k
      = _
    rw [hd2]
  have hfuse : hybrid_fuse w f k
      = (((w.foldl (fun d h => dictInsert d h.text h) []).map Prod.snd).take k
          ++ (ext.map Prod.snd).take
              (k - ((w.foldl (fun d h => dictInsert d h.text h)
                ([] : List (String × Hit))).map Prod.snd).length)) := by
    rw [hfuse0, List.map_append, List.take_append_eq_append_take]
  have hA : ∀ a ∈ ((w.foldl (fun d h => dictInsert d h.text h)
      ([] : List (String × Hit))).map Prod.snd).take k,
      a.source_type = "keyword" := by
    intro a ha
    obtain ⟨p, hp, rfl⟩ := List.mem_map.mp (List.take_subset _ _ ha)
    exact hw p.2 (hd1 p hp).1
  have hB : ∀ b ∈ (ext.map Prod.snd).take
      (k - ((w.foldl (fun d h => dictInsert d h.text h)
        ([] : List (String × Hit))).map Prod.snd).length),
      b.source_type = "vector" := by
    intro b hb
    obtain ⟨p, hp, rfl⟩ := List.mem_map.mp (List.take_subset _ _ hb)
    exact hf p.2 (hext p hp).1
  refine ⟨?_, ?_, ?_, ?_⟩
  · rw [hfuse0]
    exact List.length_take_le _ _
  · intro h hm
    rw [hfuse] at hm
    rcases List.mem_append.mp hm with hm | hm
    · obtain ⟨p, hp, rfl⟩ := List.mem_map.mp (List.take_subset _ _ hm)
      exact Or.inl (hd1 p hp).1
    · obtain ⟨p, hp, rfl⟩ := List.mem_map.mp (List.take_subset _ _ hm)
      exact Or.inr (hext p hp).1
  · intro h hm hv g hgw
    rw [hfuse] at hm
    rcases List.mem_append.mp hm with hm | hm
    · have hcontra := hA _ hm
      rw [hv] at hcontra
      exact absurd hcontra (by decide)
    · obtain ⟨p, hp, rfl⟩ := List.mem_map.mp (List.take_subset _ _ hm)
      obtain ⟨_, hpt, hpn⟩ := hext p hp
      intro hteq
      have hsome := hkey g hgw
      rw [hteq, ← hpt, hpn] at hsome
      cases hsome
  · rw [hfuse, List.pairwise_append]
    refine ⟨?_, ?_, ?_⟩
    · refine List.pairwise_of_forall_mem_list ?_
      intro a ha b hb hab
      rw [hA a ha] at hab
      exact absurd hab.1 (by decide)
    · refine List.pairwise_of_forall_mem_list ?_
      intro a ha b hb hab
      rw [hB b hb] at hab
      exact absurd hab.2 (by decide)
    · intro a ha b hb hab
      rw [hA a ha] at hab
      exact absurd hab.1 (by decide)

/-- C3 witness: the fusion properties at a concrete query result — one
keyword hit, one vector hit sharing its text and one distinct vector hit,
truncated to `k = 2`. -/
theorem c3_fusion_witness :
    (hybrid_fuse [⟨"w1", "x", "keyword"⟩]
        [⟨"v1", "x", "vector"⟩, ⟨"v2", "y", "vector"⟩] 2).length ≤ 2 ∧
    (hybrid_fuse [⟨"w1", "x", "keyword"⟩]
        [⟨"v1", "x", "vector"⟩, ⟨"v2", "y", "vector"⟩] 2).Pairwise
      (fun a b => ¬(a.source_type = "vector" ∧ b.source_type = "keyword")) := by
  have h := c3_fusion [⟨"w1", "x", "keyword"⟩]
    [⟨"v1", "x", "vector"⟩, ⟨"v2", "y", "vector"⟩] 2
    (by intro p hp; rcases List.mem_cons.mp hp with h1 | h1
        · rw [h1]
        · cases h1)
    (by intro p hp
        rcases List.mem_cons.mp hp with h1 | h1
        · rw [h1]
        · rcases List.mem_cons.mp h1 with h2 | h2
          · rw [h2]
          · cases h2)
  exact ⟨h.1, h.2.2.2⟩

/-! ## Chunker lemmas -/

theorem totalWords_nil : totalWords [] = 0 := rfl

theorem totalWords_cons (s : List String) (l : List (List String)) :
    totalWords (s :: l) = s.length + totalWords l := by
  simp [totalWords]

theorem totalWords_append (a b : List (List String)) :
    totalWords (a ++ b) = totalWords a + totalWords b := by
  simp [totalWords]

theorem length_flatten_eq_totalWords (l : List (List String)) :
    l.flatten.length = totalWords l := by
  simp [totalWords]

/-- When the running count has already reached the overlap target, the
seeding loop stops immediately. -/
theorem popSeed_stop (ow : Nat) (rev acc : List (List String)) (c : Nat)
    (h : ¬ c < ow) : popSeed ow rev c acc = (acc, c) := by
  cases rev <;> simp [popSeed, h]

/-- The returned running count of the seeding loop is the total word count
of the returned seed, provided it was on entry. -/
theorem popSeed_count (ow : Nat) :
    ∀ (rev acc : List (List String)) (c : Nat), c = totalWords acc →
      (popSeed ow rev c acc).2 = totalWords (popSeed ow rev c acc).1 := by
  intro rev
  induction rev with
  | nil =>
    intro acc c hc
    exact hc
  | cons s rest ih =>
    intro acc c hc
    unfold popSeed
    by_cases h : c < ow
    · rw [if_pos h]
      exact ih (s :: acc) (c + s.length)
        (by rw [totalWords_cons, hc, Nat.add_comm])
    · rw [if_neg h]
      exact hc

/-- The seed is built from a consumed reversed-front of the loop input. -/
theorem popSeed_consumed (ow : Nat) :
    ∀ (rev acc : List (List String)) (c : Nat),
      ∃ t, (popSeed ow rev c acc).1 = t.reverse ++ acc ∧
        ∃ rest, rev = t ++ rest := by
  intro rev
  induction rev with
  | nil =>
    intro acc c
    exact ⟨[], rfl, [], rfl⟩
  | cons s rest ih =>
    intro acc c
    unfold popSeed
    by_cases h : c < ow
    · rw [if_pos h]
      obtain ⟨t, ht, r2, hr2⟩ := ih (s :: acc) (c + s.length)
      refine ⟨s :: t, ?_, r2, by rw [hr2]; rfl⟩
      rw [ht, List.reverse_cons, List.append_assoc]
      rfl
    · rw [if_neg h]
      exact ⟨[], rfl, s :: rest, rfl⟩

/-- Minimality of the seeding loop: either the whole input is consumed, or
the returned count has reached the overlap target and dropping the
earliest seeded sentence falls below it. -/
theorem popSeed_min (ow : Nat) :
    ∀ (rev acc : List (List String)) (c : Nat), c = totalWords acc → c < ow →
      (popSeed ow rev c acc).1 = rev.reverse ++ acc ∨
      (ow ≤ (popSeed ow rev c acc).2 ∧
       totalWords ((popSeed ow rev c acc).1.tail) < ow) := by
  intro rev
  induction rev with
  | nil =>
    intro acc c hc hlt
    exact Or.inl rfl
  | cons s rest ih =>
    intro acc c hc hlt
    unfold popSeed
    rw [if_pos hlt]
    by_cases h2 : c + s.length < ow
    · rcases ih (s :: acc) (c + s.length)
        (by rw [totalWords_cons, hc, Nat.add_comm]) h2 with h | h
      · left
        rw [h, List.reverse_cons, List.append_assoc]
        rfl
      · right
        exact h
    · rw [popSeed_stop ow rest (s :: acc) (c + s.length) h2]
      right
      refine ⟨Nat.le_of_not_lt h2, ?_⟩
      show totalWords acc < ow
      rw [← hc]
      exact hlt

/-- The seeded count is bounded by `max c (ow − 1 + L)` when every input
sentence has at most `L` words. -/
theorem popSeed_le (ow L : Nat) :
    ∀ (rev acc : List (List String)) (c : Nat),
      (∀ s ∈ rev, s.length ≤ L) →
      (popSeed ow rev c acc).2 ≤ max c (ow - 1 + L) := by
  intro rev
  induction rev with
  | nil =>
    intro acc c _
    exact le_max_left _ _
  | cons s rest ih =>
    intro acc c hL
    unfold popSeed
    by_cases h : c < ow
    · rw [if_pos h]
      have h1 : c + s.length ≤ ow - 1 + L := by
        have hs := hL s (List.mem_cons_self _ _)
        omega
      have h2 := ih (s :: acc) (c + s.length)
        (fun t ht => hL t (List.mem_cons_of_mem _ ht))
      exact h2.trans (max_le (h1.trans (le_max_right _ _)) (le_max_right _ _))
    · rw [if_neg h]
      exact le_max_left _ _

/-- Every sentence in the seed comes from the loop input or the initial
accumulator. -/
theorem popSeed_forall (ow : Nat) (P : List String → Prop) :
    ∀ (rev acc : List (List String)) (c : Nat),
      (∀ s ∈ rev, P s) → (∀ s ∈ acc, P s) →
      ∀ s ∈ (popSeed ow rev c acc).1, P s := by
  intro rev
  induction rev with
  | nil =>
    intro acc c _ hacc
    exact hacc
  | cons s rest ih =>
    intro acc c hrev hacc
    unfold popSeed
    by_cases h : c < ow
    · rw [if_pos h]
      exact ih (s :: acc) (c + s.length)
        (fun t ht => hrev t (List.mem_cons_of_mem _ ht))
        (fun t ht => by
          rcases List.mem_cons.mp ht with ht | ht
          · exact ht ▸ hrev s (List.mem_cons_self _ _)
          · exact hacc t ht)
    · rw [if_neg h]
      exact hacc

/-- One chunker loop step preserves the size invariant: running count
matches the accumulation, all accumulated sentences are `≤ L` words, the
accumulation holds at most `max em (ow − 1 + 2L)` words, and so does every
emitted chunk body. -/
theorem chunkStep_inv (em ow L : Nat) (st : CState) (sent : List String)
    (hw : sent.length ≤ L)
    (h1 : st.cur_words = totalWords st.cur)
    (h2 : ∀ s ∈ st.cur, s.length ≤ L)
    (h3 : totalWords st.cur ≤ max em (ow - 1 + 2 * L))
    (h4 : ∀ b ∈ st.chunks, b.length ≤ max em (ow - 1 + 2 * L)) :
    (chunkStep em ow st sent).cur_words
        = totalWords (chunkStep em ow st sent).cur ∧
    (∀ s ∈ (chunkStep em ow st sent).cur, s.length ≤ L) ∧
    totalWords (chunkStep em ow st sent).cur ≤ max em (ow - 1 + 2 * L) ∧
    ∀ b ∈ (chunkStep em ow st sent).chunks,
      b.length ≤ max em (ow - 1 + 2 * L) := by
  unfold chunkStep
  by_cases hfit : st.cur_words + sent.length ≤ em
  · rw [if_pos hfit]
    refine ⟨?_, ?_, ?_, h4⟩
    · show st.cur_words + sent.length = totalWords (st.cur ++ [sent])
      rw [totalWords_append, totalWords_cons, totalWords_nil, h1]
      omega
    · intro s hs
      rcases List.mem_append.mp hs with hs | hs
      · exact h2 s hs
      · rcases List.mem_cons.mp hs with hs | hs
        · exact hs ▸ hw
        · cases hs
    · show totalWords (st.cur ++ [sent]) ≤ max em (ow - 1 + 2 * L)
      rw [totalWords_append, totalWords_cons, totalWords_nil, ← h1]
      exact le_max_of_le_left (by omega)
  · rw [if_neg hfit]
    have hseed_count : (popSeed ow st.cur.reverse 0 []).2
        = totalWords (popSeed ow st.cur.reverse 0 []).1 :=
      popSeed_count ow st.cur.reverse [] 0 rfl
    have hseed_mem : ∀ s ∈ (popSeed ow st.cur.reverse 0 []).1, s.length ≤ L :=
      popSeed_forall ow (fun s => s.length ≤ L) st.cur.reverse [] 0
        (fun s hs => h2 s (List.mem_reverse.mp hs)) (by intro s hs; cases hs)
    have hseed_le : (popSeed ow st.cur.reverse 0 []).2 ≤ ow - 1 + L := by
      have h := popSeed_le ow L st.cur.reverse [] 0
        (fun s hs => h2 s (List.mem_reverse.mp hs))
      omega
    refine ⟨?_, ?_, ?_, ?_⟩
    · show (popSeed ow st.cur.reverse 0 []).2 + sent.length
        = totalWords ((popSeed ow st.cur.reverse 0 []).1 ++ [sent])
      rw [totalWords_append, totalWords_cons, totalWords_nil, hseed_count]
      omega
    · intro s hs
      rcases List.mem_append.mp hs with hs | hs
      · exact hseed_mem s hs
      · rcases List.mem_cons.mp hs with hs | hs
        · exact hs ▸ hw
        · cases hs
    · show totalWords ((popSeed ow st.cur.reverse 0 []).1 ++ [sent])
        ≤ max em (ow - 1 + 2 * L)
      rw [totalWords_append, totalWords_cons, totalWords_nil, ← hseed_count]
      exact le_max_of_le_right (by omega)
    · intro b hb
      have hb2 : b ∈ (if st.cur.isEmpty then st.chunks
          else st.chunks ++ [st.cur.flatten]) := hb
      by_cases hcur : st.cur.isEmpty
      · rw [if_pos hcur] at hb2
        exact h4 b hb2
      · rw [if_neg hcur] at hb2
        rcases List.mem_append.mp hb2 with hb2 | hb2
        · exact h4 b hb2
        · rcases List.mem_cons.mp hb2 with hb2 | hb2
          · rw [hb2, length_flatten_eq_totalWords]
            exact h3
          · cases hb2

/-- The chunker loop fold preserves the size invariant. -/
theorem chunkFold_inv (em ow L : Nat) (l : List (List String)) :
    ∀ st : CState, (∀ s ∈ l, s.length ≤ L) →
      st.cur_words = totalWords st.cur →
      (∀ s ∈ st.cur, s.length ≤ L) →
      totalWords st.cur ≤ max em (ow - 1 + 2 * L) →
      (∀ b ∈ st.chunks, b.length ≤ max em (ow - 1 + 2 * L)) →
      (totalWords (l.foldl (chunkStep em ow) st).cur
          ≤ max em (ow - 1 + 2 * L) ∧
       ∀ b ∈ (l.foldl (chunkStep em ow) st).chunks,
         b.length ≤ max em (ow - 1 + 2 * L)) := by
  induction l with
  | nil =>
    intro st _ _ _ h3 h4
    exact ⟨h3, h4⟩
  | cons s rest ih =>
    intro st hl h1 h2 h3 h4
    simp only [List.foldl_cons]
    obtain ⟨g1, g2, g3, g4⟩ := chunkStep_inv em ow L st s
      (hl s (List.mem_cons_self _ _)) h1 h2 h3 h4
    exact ih _ (fun t ht => hl t (List.mem_cons_of_mem _ ht)) g1 g2 g3 g4

/-- C7: counterexample — with `max_words = 200` and a 195-word context
tag, the effective maximum is `max 50 5 = 50`, yet a single 51-word
sentence is emitted as a chunk body of 51 words, exceeding the claimed
bound. -/
theorem c7_counterexample :
    chunk_text [List.replicate 51 "w"] 200 50 195 = [List.replicate 51 "w"] ∧
    ¬ (List.replicate 51 "w").length ≤ max 50 (200 - 195) := by
  exact ⟨by decide, by decide⟩

/-- C7 (amended): sentences are accumulated onto a chunk only while the
running word count stays within `max 50 (max_words − tag_word_count)`, but
an emitted chunk body can exceed that bound — through a single sentence
longer than it, or through the overlap seed plus the next sentence; what
always holds is that when every sentence has at most `L` words, every
emitted chunk body has at most
`max (max 50 (max_words − tag_word_count)) (overlap_words − 1 + 2·L)`
words. -/
theorem c7_chunk_size_bound (sentences : List (List String))
    (mw ow cl L : Nat) (hL : ∀ s ∈ sentences, s.length ≤ L) :
    ∀ body ∈ chunk_text sentences mw ow cl,
      body.length ≤ max (max 50 (mw - cl)) (ow - 1 + 2 * L) := by
  have hinv := chunkFold_inv (max 50 (mw - cl)) ow L sentences
    ⟨[], [], 0⟩ hL rfl (by intro s hs; cases hs) (by simp [totalWords])
    (by intro b hb; cases hb)
  intro body hb
  have hb2 : body ∈ (if (sentences.foldl
        (chunkStep (max 50 (mw - cl)) ow) ⟨[], [], 0⟩).cur.isEmpty then
      (sentences.foldl (chunkStep (max 50 (mw - cl)) ow) ⟨[], [], 0⟩).chunks
    else (sentences.foldl (chunkStep (max 50 (mw - cl)) ow)
        ⟨[], [], 0⟩).chunks
      ++ [(sentences.foldl (chunkStep (max 50 (mw - cl)) ow)
        ⟨[], [], 0⟩).cur.flatten]) := hb
  by_cases hcur : (sentences.foldl
      (chunkStep (max 50 (mw - cl)) ow) ⟨[], [], 0⟩).cur.isEmpty
  · rw [if_pos hcur] at hb2
    exact hinv.2 body hb2
  · rw [if_neg hcur] at hb2
    rcases List.mem_append.mp hb2 with hb2 | hb2
    · exact hinv.2 body hb2
    · rcases List.mem_cons.mp hb2 with hb2 | hb2
      · rw [hb2, length_flatten_eq_totalWords]
        exact hinv.1
      · cases hb2

/-- C7 witness: the size bound at the single chunk body emitted for a
concrete document of two one-word sentences with `L = 1`. -/
theorem c7_chunk_size_bound_witness :
    (["alpha", "beta"] : List String).length
      ≤ max (max 50 (200 - 0)) (50 - 1 + 2 * 1) :=
  c7_chunk_size_bound [["alpha"], ["beta"]] 200 50 0 1 (by decide)
    ["alpha", "beta"] (by decide)

/-- C8: counterexample — with the configured overlap of 50 words, closing
a chunk of two 30-word sentences seeds the next chunk with BOTH sentences,
a 60-word overlap exceeding the configured size (the loop pops until the
count reaches at least 50, not at most 50); in the emitted chunks the
whole 60-word first chunk recurs at the start of the second. -/
theorem c8_counterexample :
    (popSeed 50 ([List.replicate 30 "a", List.replicate 30 "b"]).reverse
        0 []).2 = 60 ∧
    ¬ (popSeed 50 ([List.replicate 30 "a", List.replicate 30 "b"]).reverse
        0 []).2 ≤ 50 ∧
    chunk_text [List.replicate 30 "a", List.replicate 30 "b",
        List.replicate 30 "c"] 60 50 0
      = [List.replicate 30 "a" ++ List.replicate 30 "b",
         List.replicate 30 "a" ++ (List.replicate 30 "b"
           ++ List.replicate 30 "c")] := by
  refine ⟨by decide, by decide, by decide⟩

/-- C8 (amended): the overlap seeded at a chunk boundary is a trailing
window (suffix) of the just-closed chunk's sentences whose cumulative word
count is the SMALLEST to reach at least the configured overlap size — the
whole chunk when its total falls short: either the seed is the entire
closed chunk, or its count is ≥ the overlap size while dropping its
earliest sentence falls below the overlap size.  The seeded count equals
the seed's total word count; it can exceed the configured size. -/
theorem c8_overlap_window (ow : Nat) (how : 0 < ow)
    (cur : List (List String)) :
    (∃ t, t ++ (popSeed ow cur.reverse 0 []).1 = cur) ∧
    (popSeed ow cur.reverse 0 []).2
        = totalWords (popSeed ow cur.reverse 0 []).1 ∧
    ((popSeed ow cur.reverse 0 []).1 = cur ∨
     (ow ≤ (popSeed ow cur.reverse 0 []).2 ∧
      totalWords ((popSeed ow cur.reverse 0 []).1.tail) < ow)) := by
  refine ⟨?_, popSeed_count ow cur.reverse [] 0 rfl, ?_⟩
  · obtain ⟨t, ht, rest, hr⟩ := popSeed_consumed ow cur.reverse [] 0
    refine ⟨rest.reverse, ?_⟩
    rw [ht, List.append_nil]
    have hcur : cur = rest.reverse ++ t.reverse := by
      have h2 : cur.reverse.reverse = (t ++ rest).reverse := by rw [hr]
      rw [List.reverse_reverse, List.reverse_append] at h2
      exact h2
    exact hcur.symm
  · rcases popSeed_min ow cur.reverse [] 0 rfl how with h | h
    · left
      rw [h, List.append_nil, List.reverse_reverse]
    · right
      exact h

/-- C8 witness: the seed characterization for the concrete two-sentence
closed chunk of the counterexample, at overlap size 50. -/
theorem c8_overlap_window_witness :
    (0 < 50 ∧
     (popSeed 50 ([List.replicate 30 "a", List.replicate 30 "b"]).reverse
        0 []).2
       = totalWords (popSeed 50
          ([List.replicate 30 "a", List.replicate 30 "b"]).reverse 0 []).1) :=
  ⟨by decide,
   (c8_overlap_window 50 (by decide)
     [List.replicate 30 "a", List.replicate 30 "b"]).2.1⟩

/-! ## Idempotence of the builder (C4) -/

theorem assignIds_mem_of_mem {α : Type} (l : List α) (p : α) (hp : p ∈ l) :
    ∀ n : Nat, ∃ m, (m, p) ∈ assignIds n l := by
  induction l with
  | nil => cases hp
  | cons c cs ih =>
    intro n
    rcases List.mem_cons.mp hp with h | h
    · exact ⟨n, by rw [h]; exact List.mem_cons_self _ _⟩
    · obtain ⟨m, hm⟩ := ih h (n + 1)
      exact ⟨m, List.mem_cons_of_mem _ hm⟩

/-- With pairwise-distinct kept ids, step 6 maps each kept chunk id to its
new fingerprint, whatever the state of the index file. -/
theorem step6_id_to_sha_mem (ifile : IndexFile) (prior : IndexState)
    (nc : List (ChunkRec × String))
    (hnd : (nc.map (fun p => p.1.id)).Nodup)
    (p : ChunkRec × String) (hp : p ∈ nc) :
    dlookup (step6 ifile prior nc).2.2.2 p.1.id = some p.2 := by
  have hne : nc ≠ [] := by
    intro h
    rw [h] at hp
    cases hp
  have key : ∀ n : Nat,
      dlookup ((assignIds n nc).foldl
        (fun d q => dictInsert d q.2.1.id q.2.2) prior.id_to_sha) p.1.id
      = some p.2 := by
    intro n
    obtain ⟨m, hm⟩ := assignIds_mem_of_mem nc p hp n
    have hnd2 : ((assignIds n nc).map
        (fun q : Nat × ChunkRec × String => q.2.1.id)).Nodup := by
      rw [assignIds_map_key (fun q : ChunkRec × String => q.1.id)]
      exact hnd
    have h := dlookup_foldl_dictInsert_mem
      (fun q : Nat × ChunkRec × String => q.2.1.id)
      (fun q : Nat × ChunkRec × String => q.2.2)
      (assignIds n nc) hnd2 (m, p) hm prior.id_to_sha
    exact h
  cases ifile with
  | ok => rw [step6_ok prior nc hne]; exact key _
  | missing => rw [step6_missing prior nc hne]; exact key _
  | corrupt => rw [step6_corrupt prior nc hne]; exact key _

/-- Every saved chunk's id is a stored id after the Whoosh sync. -/
theorem whooshSync_covers (priorW : List (String × String))
    (saved : List ChunkRec) :
    ∀ c ∈ saved, c.id ∈ (whooshSync priorW saved).map Prod.fst := by
  intro c hc
  unfold whooshSync
  rw [List.map_append]
  by_cases h : c.id ∈ priorW.map Prod.fst
  · exact List.mem_append.mpr (Or.inl h)
  · refine List.mem_append.mpr (Or.inr ?_)
    rw [List.map_map]
    refine List.mem_map.mpr ⟨c, ?_, rfl⟩
    exact List.mem_filter.mpr ⟨hc, by simpa using h⟩

/-- When every saved chunk's id is already stored, the Whoosh sync is a
no-op. -/
theorem whooshSync_id (priorW : List (String × String))
    (saved : List ChunkRec)
    (h : ∀ c ∈ saved, c.id ∈ priorW.map Prod.fst) :
    whooshSync priorW saved = priorW := by
  unfold whooshSync
  have hf : saved.filter (fun c => decide (c.id ∉ priorW.map Prod.fst)) = [] := by
    rw [List.filter_eq_nil_iff]
    intro c hc
    simpa using h c hc
  rw [hf]
  simp

/-- A run that classifies nothing as new re-persists the loaded state,
rewrites the derived artifacts from it, and embeds nothing. -/
theorem runBuilderCore_no_new (sha : String → String) (ifile : IndexFile)
    (prior : IndexState) (feed : List ChunkRec)
    (h : new_chunk_filter sha prior.id_to_sha feed = []) :
    runBuilderCore sha ifile prior feed =
      ⟨⟨prior.faissEntries, prior.saved_chunks, prior.id_to_index,
        prior.id_to_sha, whooshSync prior.whoosh prior.saved_chunks⟩,
       prior.id_to_index.foldl (fun d p => dictInsert d p.2 p.1) [],
       prior.saved_chunks.foldl (fun d c => dictInsert d c.id c) [],
       0⟩ := by
  unfold runBuilderCore
  rw [h]
  rfl

/-- C4: running the builder again on the same (unchanged) feed — valid
records carrying pairwise-distinct chunk ids — classifies every record as
unchanged (step 5 keeps nothing), embeds zero passages, and leaves the
vector index, the passage list, the lexical index and all ID maps,
including the derived reverse map and chunk dictionary, exactly as the
first run wrote them. -/
theorem c4_idempotent_second_run (sha : String → String)
    (ifile : IndexFile) (prior : IndexState) (feed : List ChunkRec)
    (hne : feed ≠ [])
    (hnd : ((feed.filter (fun c => decide (validRec c))).map ChunkRec.id).Nodup) :
    new_chunk_filter sha
        (runBuilderCore sha ifile prior feed).state.id_to_sha feed = [] ∧
    runBuilder sha .ok (runBuilderCore sha ifile prior feed).state feed
      = some { runBuilderCore sha ifile prior feed with embedded := 0 } := by
  have hnd_nc : ((new_chunk_filter sha prior.id_to_sha feed).map
      (fun p => p.1.id)).Nodup := by
    rw [new_chunk_filter_eq, List.map_map]
    have hsub : List.Sublist
        (feed.filter (fun c => decide (keepRec sha prior.id_to_sha c)))
        (feed.filter (fun c => decide (validRec c))) :=
      List.monotone_filter_right feed (fun a ha => by
        rw [decide_eq_true_eq] at ha ⊢
        exact ha.1)
    exact List.Nodup.sublist (List.Sublist.map ChunkRec.id hsub) hnd
  have hcover : ∀ c ∈ feed, validRec c →
      dlookup (runBuilderCore sha ifile prior feed).state.id_to_sha c.id
        = some (sha c.text) := by
    intro c hc hv
    show dlookup (step6 ifile prior
        (new_chunk_filter sha prior.id_to_sha feed)).2.2.2 c.id
      = some (sha c.text)
    by_cases hskip : dlookup prior.id_to_sha c.id = some (sha c.text)
    · have hnotin : c.id ∉ (new_chunk_filter sha prior.id_to_sha feed).map
          (fun p => p.1.id) := by
        intro hin
        obtain ⟨p, hp, hpid⟩ := List.mem_map.mp hin
        have hpfeed : p.1 ∈ feed.filter
            (fun c => decide (keepRec sha prior.id_to_sha c)) := by
          rw [new_chunk_filter_eq] at hp
          obtain ⟨q, hq, hqe⟩ := List.mem_map.mp hp
          have : q = p.1 := congrArg Prod.fst hqe
          exact this ▸ hq
        have hkeep := (List.mem_filter.mp hpfeed).2
        rw [decide_eq_true_eq] at hkeep
        have hpvalid : p.1 ∈ feed.filter (fun c => decide (validRec c)) :=
          List.mem_filter.mpr ⟨List.mem_of_mem_filter hpfeed,
            by rw [decide_eq_true_eq]; exact hkeep.1⟩
        have hcvalid : c ∈ feed.filter (fun c => decide (validRec c)) :=
          List.mem_filter.mpr ⟨hc, by rw [decide_eq_true_eq]; exact hv⟩
        have hpc : p.1 = c :=
          List.inj_on_of_nodup_map hnd hpvalid hcvalid hpid
        rw [hpc] at hkeep
        exact hkeep.2 hskip
      rw [step6_id_to_sha_untouched ifile prior _ c.id hnotin]
      exact hskip
    · have hkeep : (c, sha c.text) ∈ new_chunk_filter sha prior.id_to_sha feed := by
        rw [new_chunk_filter_eq]
        refine List.mem_map.mpr ⟨c, ?_, rfl⟩
        exact List.mem_filter.mpr ⟨hc,
          by rw [decide_eq_true_eq]; exact ⟨hv, hskip⟩⟩
      exact step6_id_to_sha_mem ifile prior _ hnd_nc (c, sha c.text) hkeep
  have hclass : new_chunk_filter sha
      (runBuilderCore sha ifile prior feed).state.id_to_sha feed = [] := by
    rw [new_chunk_filter_eq]
    have hfil : feed.filter (fun c => decide (keepRec sha
        (runBuilderCore sha ifile prior feed).state.id_to_sha c)) = [] := by
      rw [List.filter_eq_nil_iff]
      intro c hc hck
      rw [decide_eq_true_eq] at hck
      exact hck.2 (hcover c hc hck.1)
    rw [hfil]
    rfl
  refine ⟨hclass, ?_⟩
  have hcov2 : ∀ c ∈ (runBuilderCore sha ifile prior feed).state.saved_chunks,
      c.id ∈ (runBuilderCore sha ifile prior feed).state.whoosh.map Prod.fst := by
    intro c hc
    exact whooshSync_covers prior.whoosh
      (step6 ifile prior (new_chunk_filter sha prior.id_to_sha feed)).2.1 c hc
  unfold runBuilder
  rw [if_neg (by simpa using hne)]
  rw [runBuilderCore_no_new sha .ok
    (runBuilderCore sha ifile prior feed).state feed hclass]
  rw [whooshSync_id _ _ hcov2]
  rfl

/-- C4 witness: the second run over a concrete two-passage feed embeds
nothing and reproduces the first run's artifacts exactly. -/
theorem c4_idempotent_second_run_witness :
    new_chunk_filter (fun s => s)
        (runBuilderCore (fun s => s) .missing ⟨[], [], [], [], []⟩
          [⟨"A", "dA", "ta"⟩, ⟨"B", "dB", "tb"⟩]).state.id_to_sha
        [⟨"A", "dA", "ta"⟩, ⟨"B", "dB", "tb"⟩] = [] ∧
    runBuilder (fun s => s) .ok
        (runBuilderCore (fun s => s) .missing ⟨[], [], [], [], []⟩
          [⟨"A", "dA", "ta"⟩, ⟨"B", "dB", "tb"⟩]).state
        [⟨"A", "dA", "ta"⟩, ⟨"B", "dB", "tb"⟩]
      = some { runBuilderCore (fun s => s) .missing ⟨[], [], [], [], []⟩
          [⟨"A", "dA", "ta"⟩, ⟨"B", "dB", "tb"⟩] with embedded := 0 } :=
  c4_idempotent_second_run (fun s => s) .missing ⟨[], [], [], [], []⟩
    [⟨"A", "dA", "ta"⟩, ⟨"B", "dB", "tb"⟩] (by decide) (by decide)

end DermSight
